import Mathlib

set_option maxRecDepth 4000

/-!
Shallow embedding of the lexical analyser in `src/analisador.py` (class `Lexer`).

Modelling conventions:
* The cursor (`self.pos` into the fixed input `self.text`) is represented by the
  list of characters not yet consumed; `current_char()` is the head of that list
  and `peek_char()` the head of its tail.
* `self.line` / `self.column` are carried in a `Pos` record; `advance` becomes
  `advancePos`, applied once per consumed character.
* The Python `while` loops of the readers become `takeWhile`/`dropWhile` or
  structural recursion; the driving `tokenize` loop is given an explicit fuel
  argument (one unit per loop iteration); `fuelOut` is proved unreachable for
  the fuel supplied by `tokenize`.
* `raise SyntaxError(...)` becomes an `Except.error`; the two formatted
  messages are represented by the `unterminatedString` and
  `unexpectedCharacter` constructors carrying the interpolated data.
  The expression `result += self.current_char()` with `current_char() = None`
  (a backslash as the very last character of the input) raises a `TypeError`
  in Python; that crash is represented by the `typeError` constructor.
* Python's Unicode-aware `str.isdigit` / `str.isalpha` / `str.isalnum` are
  modelled by the ASCII classifiers `Char.isDigit` / `Char.isAlpha` /
  `Char.isAlphanum`, which agree with Python on all ASCII inputs.
-/

/-- The token kinds of `TokenType` in `src/analisador.py`. -/
inductive TokenType where
  | NUMBER | STRING | IDENTIFIER
  | PLUS | MINUS | MULTIPLY | DIVIDE
  | EQUAL | NOT_EQUAL | LESS_THAN | GREATER_THAN | LESS_EQUAL | GREATER_EQUAL
  | ASSIGN
  | LEFT_PAREN | RIGHT_PAREN | LEFT_BRACKET | RIGHT_BRACKET | COMMA
  | IF | WHILE | FOR | PRINT
  | NEWLINE | EOF | WHITESPACE
  deriving DecidableEq

/-- The `Token` dataclass: kind, source/decoded text, 1-based line and column. -/
structure Token where
  type : TokenType
  value : String
  line : Nat
  column : Nat
  deriving DecidableEq

/-- The position part of the lexer state (`self.line`, `self.column`). -/
structure Pos where
  line : Nat
  col : Nat
  deriving DecidableEq

/-- The single-quote character (codepoint 39), written via `Char.ofNat`. -/
def squote : Char := Char.ofNat 39

/-- The `advance` method: consuming `c` moves the line/column bookkeeping. -/
def advancePos (c : Char) (p : Pos) : Pos :=
  if c = '\n' then { line := p.line + 1, col := 1 }
  else { line := p.line, col := p.col + 1 }

/-- Iterated `advance` over a run of consumed characters. -/
def advanceAll (l : List Char) (p : Pos) : Pos :=
  l.foldl (fun q c => advancePos c q) p

/-- Membership in the string `' \t'` tested by `skip_whitespace` and `tokenize`. -/
def isHSpace (c : Char) : Bool := c = ' ' || c = '\t'

/-- The continuation test of `read_identifier`: `isalnum() or == underscore`. -/
def isIdentChar (c : Char) : Bool := c.isAlphanum || c = '_'

/-- The dispatch test for identifiers in `tokenize`: `isalpha() or == underscore`. -/
def isIdentStart (c : Char) : Bool := c.isAlpha || c = '_'

/-- The `self.keywords` dictionary lookup with default `IDENTIFIER`. -/
def keywordType (s : String) : TokenType :=
  if s = "if" then .IF
  else if s = "while" then .WHILE
  else if s = "for" then .FOR
  else if s = "print" then .PRINT
  else .IDENTIFIER

/-- Failure modes of `tokenize`; see the module comment for `typeError` and
`fuelOut`. -/
inductive LexError where
  | unterminatedString (line col : Nat)
  | unexpectedCharacter (c : Char) (line col : Nat)
  | typeError
  | fuelOut
  deriving DecidableEq

/-- The `read_number` method.  `cs` starts at the first digit; the result is
the emitted token, the remaining input, and the cursor position after it. -/
def readNumber (cs : List Char) (p : Pos) : Token × List Char × Pos :=
  let startCol := p.col
  let intPart := cs.takeWhile Char.isDigit
  let rest₁ := cs.dropWhile Char.isDigit
  let p₁ := advanceAll intPart p
  match rest₁ with
  | '.' :: rest₂ =>
      let fracPart := rest₂.takeWhile Char.isDigit
      let rest₃ := rest₂.dropWhile Char.isDigit
      let p₃ := advanceAll fracPart (advancePos '.' p₁)
      (⟨.NUMBER, ⟨intPart ++ '.' :: fracPart⟩, p₃.line, startCol⟩, rest₃, p₃)
  | _ => (⟨.NUMBER, ⟨intPart⟩, p₁.line, startCol⟩, rest₁, p₁)

/-- The `if`/`elif` chain of `read_string` deciding the character appended for
the escape sequence backslash-`d` inside a string delimited by `quote`. -/
def decodeEscape (quote d : Char) : Char :=
  if d = 'n' then '\n'
  else if d = 't' then '\t'
  else if d = '\\' then '\\'
  else if d = quote then quote
  else d

/-- The body of `read_string` after the opening quote was consumed: `quote` is
the opening quote character, `startCol` the column it was read at, `cs` the
input after it and `acc` the decoded characters so far.  On success it returns
the decoded text, the input after the closing quote and the position after it. -/
def readStringLoop (quote : Char) (startCol : Nat) (cs : List Char) (p : Pos)
    (acc : List Char) : Except LexError (List Char × List Char × Pos) :=
  match cs with
  | [] => .error (.unterminatedString p.line startCol)
  | c :: cs₁ =>
    if c = quote then
      .ok (acc, cs₁, advancePos c p)
    else if c = '\\' then
      match cs₁ with
      | [] => .error .typeError
      | d :: cs₂ =>
        readStringLoop quote startCol cs₂ (advancePos d (advancePos c p))
          (acc ++ [decodeEscape quote d])
    else
      readStringLoop quote startCol cs₁ (advancePos c p) (acc ++ [c])

/-- The `read_identifier` method, with the keyword reclassification. -/
def readIdentifier (cs : List Char) (p : Pos) : Token × List Char × Pos :=
  let startCol := p.col
  let chars := cs.takeWhile isIdentChar
  let rest := cs.dropWhile isIdentChar
  let p₁ := advanceAll chars p
  (⟨keywordType ⟨chars⟩, ⟨chars⟩, p₁.line, startCol⟩, rest, p₁)

/-- The `single_char_tokens` dictionary of `tokenize`. -/
def singleCharType (c : Char) : Option TokenType :=
  if c = '+' then some .PLUS
  else if c = '-' then some .MINUS
  else if c = '*' then some .MULTIPLY
  else if c = '/' then some .DIVIDE
  else if c = '=' then some .ASSIGN
  else if c = '<' then some .LESS_THAN
  else if c = '>' then some .GREATER_THAN
  else if c = '(' then some .LEFT_PAREN
  else if c = ')' then some .RIGHT_PAREN
  else if c = '[' then some .LEFT_BRACKET
  else if c = ']' then some .RIGHT_BRACKET
  else if c = ',' then some .COMMA
  else none

/-- Prepend a token to the result of the remaining loop (the `tokens.append`
followed by `continue`; an exception discards every appended token). -/
def consTok (t : Token) : Except LexError (List Token) → Except LexError (List Token)
  | .error e => .error e
  | .ok ts => .ok (t :: ts)

/-- The driving loop of `tokenize`, one unit of fuel per iteration.  The
branches appear in the order of the Python dispatch chain. -/
def tokenizeGo : Nat → List Char → Pos → Except LexError (List Token)
  | 0, _, _ => .error .fuelOut
  | _ + 1, [], p => .ok [⟨.EOF, "", p.line, p.col⟩]
  | fuel + 1, c :: cs, p =>
    if isHSpace c then
      tokenizeGo fuel ((c :: cs).dropWhile isHSpace)
        (advanceAll ((c :: cs).takeWhile isHSpace) p)
    else if c = '\n' then
      consTok ⟨.NEWLINE, "\\n", p.line, p.col⟩ (tokenizeGo fuel cs (advancePos c p))
    else if c.isDigit then
      match readNumber (c :: cs) p with
      | (t, rest, p₁) => consTok t (tokenizeGo fuel rest p₁)
    else if c = '"' ∨ c = squote then
      match readStringLoop c p.col cs (advancePos c p) [] with
      | .error e => .error e
      | .ok (v, rest, p₁) =>
          consTok ⟨.STRING, ⟨v⟩, p₁.line, p.col⟩ (tokenizeGo fuel rest p₁)
    else if isIdentStart c then
      match readIdentifier (c :: cs) p with
      | (t, rest, p₁) => consTok t (tokenizeGo fuel rest p₁)
    else if c = '=' ∧ cs.head? = some '=' then
      consTok ⟨.EQUAL, "==", p.line, p.col⟩
        (tokenizeGo fuel cs.tail (advancePos '=' (advancePos c p)))
    else if c = '!' ∧ cs.head? = some '=' then
      consTok ⟨.NOT_EQUAL, "!=", p.line, p.col⟩
        (tokenizeGo fuel cs.tail (advancePos '=' (advancePos c p)))
    else if c = '<' ∧ cs.head? = some '=' then
      consTok ⟨.LESS_EQUAL, "<=", p.line, p.col⟩
        (tokenizeGo fuel cs.tail (advancePos '=' (advancePos c p)))
    else if c = '>' ∧ cs.head? = some '=' then
      consTok ⟨.GREATER_EQUAL, ">=", p.line, p.col⟩
        (tokenizeGo fuel cs.tail (advancePos '=' (advancePos c p)))
    else
      match singleCharType c with
      | some tt => consTok ⟨tt, ⟨[c]⟩, p.line, p.col⟩ (tokenizeGo fuel cs (advancePos c p))
      | none => .error (.unexpectedCharacter c p.line p.col)

/-- The `tokenize` entry point: the loop runs at most `length + 1` iterations
because every iteration on a nonempty remainder consumes at least one
character. -/
def tokenize (s : String) : Except LexError (List Token) :=
  tokenizeGo (s.data.length + 1) s.data ⟨1, 1⟩















/-! Basic lemmas about the embedded operations. -/

lemma consTok_eq_ok {t : Token} {r : Except LexError (List Token)} {ts : List Token}
    (h : consTok t r = .ok ts) : ∃ ts₁, r = .ok ts₁ ∧ ts = t :: ts₁ := by
  cases r with
  | error e => simp [consTok] at h
  | ok ts₁ => exact ⟨ts₁, rfl, by simpa [consTok] using h.symm⟩

lemma consTok_eq_error {t : Token} {r : Except LexError (List Token)} {e : LexError}
    (h : consTok t r = .error e) : r = .error e := by
  cases r with
  | error e₁ => simpa [consTok] using h
  | ok ts₁ => simp [consTok] at h

lemma advanceAll_no_newline {l : List Char} (hl : ∀ c ∈ l, c ≠ '\n') (p : Pos) :
    advanceAll l p = ⟨p.line, p.col + l.length⟩ := by
  induction l generalizing p with
  | nil => rfl
  | cons c l ih =>
    have hc : c ≠ '\n' := hl c (by simp)
    show advanceAll l (advancePos c p) = _
    rw [ih (fun d hd => hl d (by simp [hd])), advancePos, if_neg hc]
    simp [Nat.add_comm, Nat.add_assoc, Nat.add_left_comm]

lemma digit_ne_newline {c : Char} (h : c.isDigit = true) : c ≠ '\n' := by
  intro hc; subst hc; simp [Char.isDigit] at h

lemma identChar_ne_newline {c : Char} (h : isIdentChar c = true) : c ≠ '\n' := by
  intro hc; subst hc; exact absurd h (by decide)

lemma keywordType_ne (s : String) : keywordType s ≠ .EOF ∧ keywordType s ≠ .NEWLINE := by
  simp only [keywordType]
  split_ifs <;> exact ⟨by simp, by simp⟩

set_option maxHeartbeats 2000000 in
lemma singleCharType_ne {c : Char} {tt : TokenType} (h : singleCharType c = some tt) :
    tt ≠ .EOF ∧ tt ≠ .NEWLINE := by
  unfold singleCharType at h
  repeat' split at h
  all_goals first
    | exact Option.noConfusion h
    | (injection h with h; subst h; exact ⟨by decide, by decide⟩)

lemma readNumber_spec (cs : List Char) (p : Pos) (t : Token) (rest : List Char) (p₁ : Pos)
    (h : readNumber cs p = (t, rest, p₁)) :
    t.type = .NUMBER ∧ t.value.data ++ rest = cs ∧ t.column = p.col ∧ t.line = p.line := by
  simp only [readNumber] at h
  have hd : ∀ d ∈ cs.takeWhile Char.isDigit, d ≠ '\n' :=
    fun d hdm => digit_ne_newline (List.mem_takeWhile_imp hdm)
  split at h
  case _ rest₂ hm =>
    obtain ⟨rfl, rfl, rfl⟩ : _ ∧ _ ∧ _ := by simpa [Prod.ext_iff] using h.symm
    refine ⟨rfl, ?_, rfl, ?_⟩
    · show (cs.takeWhile Char.isDigit ++ '.' :: rest₂.takeWhile Char.isDigit) ++
        rest₂.dropWhile Char.isDigit = cs
      conv_rhs => rw [← List.takeWhile_append_dropWhile Char.isDigit cs, hm]
      simp [List.takeWhile_append_dropWhile]
    · show (advanceAll _ (advancePos '.' (advanceAll _ p))).line = p.line
      have h2 : ∀ d ∈ rest₂.takeWhile Char.isDigit, d ≠ '\n' :=
        fun d hdm => digit_ne_newline (List.mem_takeWhile_imp hdm)
      rw [advanceAll_no_newline hd, advancePos, if_neg (by decide),
        advanceAll_no_newline h2]
  case _ hm =>
    obtain ⟨rfl, rfl, rfl⟩ : _ ∧ _ ∧ _ := by simpa [Prod.ext_iff] using h.symm
    refine ⟨rfl, List.takeWhile_append_dropWhile Char.isDigit cs, rfl, ?_⟩
    show (advanceAll _ p).line = p.line
    rw [advanceAll_no_newline hd]

lemma readIdentifier_spec (cs : List Char) (p : Pos) (t : Token) (rest : List Char) (p₁ : Pos)
    (h : readIdentifier cs p = (t, rest, p₁)) :
    t.type = keywordType ⟨cs.takeWhile isIdentChar⟩ ∧ t.value.data ++ rest = cs ∧
      t.column = p.col ∧ t.line = p.line := by
  simp only [readIdentifier] at h
  obtain ⟨rfl, rfl, rfl⟩ : _ ∧ _ ∧ _ := by simpa [Prod.ext_iff] using h.symm
  refine ⟨rfl, List.takeWhile_append_dropWhile isIdentChar cs, rfl, ?_⟩
  show (advanceAll _ p).line = p.line
  rw [advanceAll_no_newline (fun d hdm => identChar_ne_newline (List.mem_takeWhile_imp hdm))]

/-! Single-step unfolding lemmas for the string-reader loop. -/

lemma readStringLoop_nil (q : Char) (sc : Nat) (p : Pos) (acc : List Char) :
    readStringLoop q sc [] p acc = .error (.unterminatedString p.line sc) := rfl

lemma readStringLoop_closing (q : Char) (sc : Nat) (cs : List Char) (p : Pos)
    (acc : List Char) :
    readStringLoop q sc (q :: cs) p acc = .ok (acc, cs, advancePos q p) := by
  rw [readStringLoop.eq_def]; simp

lemma readStringLoop_backslash_nil (q : Char) (sc : Nat) (p : Pos) (acc : List Char)
    (hq : ('\\' : Char) ≠ q) :
    readStringLoop q sc ['\\'] p acc = .error .typeError := by
  rw [readStringLoop.eq_def]; simp [hq]

lemma readStringLoop_backslash (q : Char) (sc : Nat) (d : Char) (cs : List Char) (p : Pos)
    (acc : List Char) (hq : ('\\' : Char) ≠ q) :
    readStringLoop q sc ('\\' :: d :: cs) p acc =
      readStringLoop q sc cs (advancePos d (advancePos '\\' p))
        (acc ++ [decodeEscape q d]) := by
  rw [readStringLoop.eq_def]; simp [hq]

lemma readStringLoop_other (q : Char) (sc : Nat) (c : Char) (cs : List Char) (p : Pos)
    (acc : List Char) (hq : c ≠ q) (hb : c ≠ '\\') :
    readStringLoop q sc (c :: cs) p acc =
      readStringLoop q sc cs (advancePos c p) (acc ++ [c]) := by
  rw [readStringLoop.eq_def]; simp [hq, hb]

/-! Global facts about the string-reader loop, by its functional induction. -/

lemma readStringLoop_ok_span (q : Char) (sc : Nat) (cs : List Char) (p : Pos)
    (acc : List Char) : ∀ v rest p₁, readStringLoop q sc cs p acc = .ok (v, rest, p₁) →
      ∃ consumed, cs = consumed ++ rest ∧ consumed ≠ [] := by
  induction cs, p, acc using readStringLoop.induct q sc with
  | case1 p acc => intro v rest p₁ h; rw [readStringLoop_nil] at h; exact Except.noConfusion h
  | case2 p acc cs₂ =>
      intro v rest p₁ h
      rw [readStringLoop_closing] at h
      obtain ⟨-, rfl, -⟩ : v = acc ∧ rest = cs₂ ∧ p₁ = advancePos q p := by
        simpa [Prod.ext_iff, eq_comm] using h
      exact ⟨[q], rfl, by simp⟩
  | case3 p acc hne =>
      intro v rest p₁ h
      rw [readStringLoop_backslash_nil q sc p acc (Ne.intro hne)] at h
      exact Except.noConfusion h
  | case4 p acc d cs₂ hne ih =>
      intro v rest p₁ h
      rw [readStringLoop_backslash q sc d cs₂ p acc (Ne.intro hne)] at h
      obtain ⟨consumed, rfl, -⟩ := ih v rest p₁ h
      exact ⟨'\\' :: d :: consumed, rfl, by simp⟩
  | case5 p acc d cs₂ hq hb ih =>
      intro v rest p₁ h
      rw [readStringLoop_other q sc d cs₂ p acc (Ne.intro hq) (Ne.intro hb)] at h
      obtain ⟨consumed, rfl, -⟩ := ih v rest p₁ h
      exact ⟨d :: consumed, rfl, by simp⟩

lemma readStringLoop_error_shape (q : Char) (sc : Nat) (cs : List Char) (p : Pos)
    (acc : List Char) : ∀ e, readStringLoop q sc cs p acc = .error e →
      (∃ l, e = .unterminatedString l sc) ∨ e = .typeError := by
  induction cs, p, acc using readStringLoop.induct q sc with
  | case1 p acc =>
      intro e h
      rw [readStringLoop_nil] at h
      exact Or.inl ⟨p.line, by simpa [eq_comm] using h⟩
  | case2 p acc cs₂ =>
      intro e h; rw [readStringLoop_closing] at h; exact Except.noConfusion h
  | case3 p acc hne =>
      intro e h
      rw [readStringLoop_backslash_nil q sc p acc (Ne.intro hne)] at h
      exact Or.inr (by simpa [eq_comm] using h)
  | case4 p acc d cs₂ hne ih =>
      intro e h
      rw [readStringLoop_backslash q sc d cs₂ p acc (Ne.intro hne)] at h
      exact ih e h
  | case5 p acc d cs₂ hq hb ih =>
      intro e h
      rw [readStringLoop_other q sc d cs₂ p acc (Ne.intro hq) (Ne.intro hb)] at h
      exact ih e h

lemma readStringLoop_typeError_last (q : Char) (sc : Nat) (cs : List Char) (p : Pos)
    (acc : List Char) : readStringLoop q sc cs p acc = .error .typeError →
      ∃ pre, cs = pre ++ ['\\'] := by
  induction cs, p, acc using readStringLoop.induct q sc with
  | case1 p acc =>
      intro h; rw [readStringLoop_nil] at h; simp at h
  | case2 p acc cs₂ =>
      intro h; rw [readStringLoop_closing] at h; exact Except.noConfusion h
  | case3 p acc hne =>
      intro h; exact ⟨[], rfl⟩
  | case4 p acc d cs₂ hne ih =>
      intro h
      rw [readStringLoop_backslash q sc d cs₂ p acc (Ne.intro hne)] at h
      obtain ⟨pre, rfl⟩ := ih h
      exact ⟨'\\' :: d :: pre, rfl⟩
  | case5 p acc d cs₂ hq hb ih =>
      intro h
      rw [readStringLoop_other q sc d cs₂ p acc (Ne.intro hq) (Ne.intro hb)] at h
      obtain ⟨pre, rfl⟩ := ih h
      exact ⟨d :: pre, rfl⟩

lemma readStringLoop_unterminated_pos (q : Char) (sc : Nat) (cs : List Char) (p : Pos)
    (acc : List Char) : ∀ l col, (∀ c ∈ cs, c ≠ '\n') →
      readStringLoop q sc cs p acc = .error (.unterminatedString l col) →
      l = p.line ∧ col = sc := by
  induction cs, p, acc using readStringLoop.induct q sc with
  | case1 p acc =>
      intro l col _ h
      rw [readStringLoop_nil] at h
      have : LexError.unterminatedString p.line sc = .unterminatedString l col :=
        by simpa using h
      injection this with h1 h2
      exact ⟨h1.symm, h2.symm⟩
  | case2 p acc cs₂ =>
      intro l col _ h; rw [readStringLoop_closing] at h; exact Except.noConfusion h
  | case3 p acc hne =>
      intro l col _ h
      rw [readStringLoop_backslash_nil q sc p acc (Ne.intro hne)] at h
      simp at h
  | case4 p acc d cs₂ hne ih =>
      intro l col hnl h
      rw [readStringLoop_backslash q sc d cs₂ p acc (Ne.intro hne)] at h
      have hd : d ≠ '\n' := hnl d (by simp)
      have := ih l col (fun c hc => hnl c (by simp [hc])) h
      rwa [advancePos, if_neg hd, advancePos, if_neg (by decide : ('\\' : Char) ≠ '\n')] at this
  | case5 p acc d cs₂ hq hb ih =>
      intro l col hnl h
      rw [readStringLoop_other q sc d cs₂ p acc (Ne.intro hq) (Ne.intro hb)] at h
      have hd : d ≠ '\n' := hnl d (by simp)
      have := ih l col (fun c hc => hnl c (by simp [hc])) h
      rwa [advancePos, if_neg hd] at this

/-! Fuel sufficiency: every loop iteration on a nonempty remainder consumes at
least one character, so `length + 1` units of fuel can never run out. -/

lemma consTok_ne_error {t : Token} {r : Except LexError (List Token)} {e : LexError}
    (h : r ≠ .error e) : consTok t r ≠ .error e :=
  fun hc => h (consTok_eq_error hc)

lemma identStart_ident {c : Char} (h : isIdentStart c = true) : isIdentChar c = true := by
  simp only [isIdentStart, Bool.or_eq_true] at h
  rcases h with h | h
  · simp [isIdentChar, Char.isAlphanum, h]
  · simp [isIdentChar, h]

lemma readNumber_value_ne_nil {c : Char} (hc : c.isDigit = true) (cs : List Char) (p : Pos) :
    (readNumber (c :: cs) p).1.value.data ≠ [] := by
  simp only [readNumber]
  split <;> simp [List.takeWhile_cons_of_pos hc]

lemma readIdentifier_value_ne_nil {c : Char} (hc : isIdentChar c = true) (cs : List Char)
    (p : Pos) : (readIdentifier (c :: cs) p).1.value.data ≠ [] := by
  simp [readIdentifier, List.takeWhile_cons_of_pos hc]

lemma span_rest_length {v rest cs : List Char} {c : Char}
    (h : v ++ rest = c :: cs) (hv : v ≠ []) : rest.length ≤ cs.length := by
  have hl := congrArg List.length h
  simp only [List.length_append, List.length_cons] at hl
  have hp : 0 < v.length := List.length_pos.2 hv
  omega

lemma tokenizeGo_no_fuelOut (n : Nat) : ∀ (cs : List Char) (p : Pos), cs.length < n →
    tokenizeGo n cs p ≠ .error .fuelOut := by
  induction n with
  | zero => intro cs p h; exact absurd h (by omega)
  | succ n ih =>
    intro cs p hlen
    match cs with
    | [] => simp [tokenizeGo]
    | c :: cs₁ =>
      have hlen₁ : cs₁.length < n := by
        simp only [List.length_cons] at hlen; omega
      rw [tokenizeGo]
      split_ifs with hws hnl hdig hquote hident heq hneq hle hge
      · apply ih
        rw [List.dropWhile_cons_of_pos hws]
        exact lt_of_le_of_lt ((List.dropWhile_sublist _).length_le) hlen₁
      · exact consTok_ne_error (ih cs₁ _ hlen₁)
      · split
        next t rest p₁ hr =>
          apply consTok_ne_error
          apply ih
          obtain ⟨-, hspan, -, -⟩ := readNumber_spec _ _ _ _ _ hr
          have hv : t.value.data ≠ [] := by
            rw [show t = (readNumber (c :: cs₁) p).1 from by rw [hr]]
            exact readNumber_value_ne_nil hdig cs₁ p
          exact lt_of_le_of_lt (span_rest_length hspan hv) hlen₁
      · split
        next e hr =>
          intro h
          injection h with h
          subst h
          rcases readStringLoop_error_shape _ _ _ _ _ _ hr with ⟨l, hl⟩ | hl <;>
            exact LexError.noConfusion hl
        next v rest p₁ hr =>
          apply consTok_ne_error
          apply ih
          obtain ⟨consumed, rfl, hc⟩ := readStringLoop_ok_span _ _ _ _ _ _ _ _ hr
          have : rest.length ≤ consumed.length + rest.length := by omega
          simp only [List.length_append] at hlen₁
          have hcp : 0 < consumed.length := List.length_pos.2 hc
          omega
      · split
        next t rest p₁ hr =>
          apply consTok_ne_error
          apply ih
          obtain ⟨-, hspan, -, -⟩ := readIdentifier_spec _ _ _ _ _ hr
          have hv : t.value.data ≠ [] := by
            rw [show t = (readIdentifier (c :: cs₁) p).1 from by rw [hr]]
            exact readIdentifier_value_ne_nil (identStart_ident hident) cs₁ p
          exact lt_of_le_of_lt (span_rest_length hspan hv) hlen₁
      · exact consTok_ne_error
          (ih cs₁.tail _ (lt_of_le_of_lt (List.tail_sublist cs₁).length_le hlen₁))
      · exact consTok_ne_error
          (ih cs₁.tail _ (lt_of_le_of_lt (List.tail_sublist cs₁).length_le hlen₁))
      · exact consTok_ne_error
          (ih cs₁.tail _ (lt_of_le_of_lt (List.tail_sublist cs₁).length_le hlen₁))
      · exact consTok_ne_error
          (ih cs₁.tail _ (lt_of_le_of_lt (List.tail_sublist cs₁).length_le hlen₁))
      · split
        next tt hr => exact consTok_ne_error (ih cs₁ _ hlen₁)
        next hr => simp

lemma tokenize_no_fuelOut (s : String) : tokenize s ≠ .error .fuelOut :=
  tokenizeGo_no_fuelOut (s.data.length + 1) s.data ⟨1, 1⟩ (by omega)

/-! The end-of-input token: the returned sequence always ends with exactly one
`EOF` token. -/

lemma eof_shape_cons {t : Token} {ts : List Token} (ht : t.type ≠ .EOF)
    (h : ∃ init l col, ts = init ++ [⟨.EOF, "", l, col⟩] ∧ ∀ u ∈ init, u.type ≠ .EOF) :
    ∃ init l col, t :: ts = init ++ [⟨.EOF, "", l, col⟩] ∧ ∀ u ∈ init, u.type ≠ .EOF := by
  obtain ⟨init, l, col, rfl, hini⟩ := h
  refine ⟨t :: init, l, col, rfl, ?_⟩
  intro u hu
  rcases List.mem_cons.1 hu with rfl | hu
  · exact ht
  · exact hini u hu

lemma tokenizeGo_ok_shape (n : Nat) : ∀ (cs : List Char) (p : Pos) (ts : List Token),
    tokenizeGo n cs p = .ok ts →
    ∃ init l col, ts = init ++ [⟨.EOF, "", l, col⟩] ∧ ∀ u ∈ init, u.type ≠ .EOF := by
  induction n with
  | zero => intro cs p ts h; simp [tokenizeGo] at h
  | succ n ih =>
    intro cs p ts h
    match cs with
    | [] =>
      rw [tokenizeGo] at h
      obtain rfl : ts = [⟨.EOF, "", p.line, p.col⟩] := by simpa [eq_comm] using h
      exact ⟨[], p.line, p.col, rfl, by simp⟩
    | c :: cs₁ =>
      rw [tokenizeGo] at h
      split_ifs at h with hws hnl hdig hquote hident heq hneq hle hge
      · exact ih _ _ _ h
      · obtain ⟨ts₁, h₁, rfl⟩ := consTok_eq_ok h
        exact eof_shape_cons (by simp) (ih _ _ _ h₁)
      · split at h
        next t rest p₁ hr =>
          obtain ⟨ts₁, h₁, rfl⟩ := consTok_eq_ok h
          obtain ⟨hty, -, -, -⟩ := readNumber_spec _ _ _ _ _ hr
          exact eof_shape_cons (by simp [hty]) (ih _ _ _ h₁)
      · split at h
        next e hr => exact Except.noConfusion h
        next v rest p₁ hr =>
          obtain ⟨ts₁, h₁, rfl⟩ := consTok_eq_ok h
          exact eof_shape_cons (by simp) (ih _ _ _ h₁)
      · split at h
        next t rest p₁ hr =>
          obtain ⟨ts₁, h₁, rfl⟩ := consTok_eq_ok h
          obtain ⟨hty, -, -, -⟩ := readIdentifier_spec _ _ _ _ _ hr
          exact eof_shape_cons (by simp [hty, (keywordType_ne _).1]) (ih _ _ _ h₁)
      · obtain ⟨ts₁, h₁, rfl⟩ := consTok_eq_ok h
        exact eof_shape_cons (by simp) (ih _ _ _ h₁)
      · obtain ⟨ts₁, h₁, rfl⟩ := consTok_eq_ok h
        exact eof_shape_cons (by simp) (ih _ _ _ h₁)
      · obtain ⟨ts₁, h₁, rfl⟩ := consTok_eq_ok h
        exact eof_shape_cons (by simp) (ih _ _ _ h₁)
      · obtain ⟨ts₁, h₁, rfl⟩ := consTok_eq_ok h
        exact eof_shape_cons (by simp) (ih _ _ _ h₁)
      · split at h
        next tt hr =>
          obtain ⟨ts₁, h₁, rfl⟩ := consTok_eq_ok h
          exact eof_shape_cons (by simp [(singleCharType_ne hr).1]) (ih _ _ _ h₁)
        next hr => exact Except.noConfusion h

/-! Round-trip: the literal source span implied by a token, and the statement
that an input decomposes into horizontal-whitespace runs interleaved with the
token spans, in order. -/

/-- The literal source span a token stands for: a newline token stands for the
consumed newline character, the end-of-input token for nothing, and every
other token for its recorded text (for string tokens the text is the decoded
value, hence not in general the consumed span). -/
def impliedSpan (t : Token) : List Char :=
  match t.type with
  | .NEWLINE => ['\n']
  | .EOF => []
  | _ => t.value.data

/-- `SpansWithWs cs ts` says the character list `cs` is exactly the implied
spans of the tokens `ts`, in order, interleaved with (possibly empty) runs of
horizontal whitespace. -/
inductive SpansWithWs : List Char → List Token → Prop where
  | nil (w : List Char) (hw : ∀ c ∈ w, isHSpace c = true) : SpansWithWs w []
  | cons (w : List Char) (t : Token) (rest : List Char) (ts : List Token)
      (hw : ∀ c ∈ w, isHSpace c = true) (h : SpansWithWs rest ts) :
      SpansWithWs (w ++ (impliedSpan t ++ rest)) (t :: ts)

lemma SpansWithWs.prepend {l : List Char} {ts : List Token} (h : SpansWithWs l ts)
    {w : List Char} (hw : ∀ c ∈ w, isHSpace c = true) : SpansWithWs (w ++ l) ts := by
  cases h with
  | nil w₁ hw₁ =>
      refine SpansWithWs.nil (w ++ l) ?_
      intro c hc
      rcases List.mem_append.1 hc with hc | hc
      exacts [hw c hc, hw₁ c hc]
  | cons w₁ t rest ts hw₁ hrec =>
      rw [← List.append_assoc]
      refine SpansWithWs.cons (w ++ w₁) t rest ts ?_ hrec
      intro c hc
      rcases List.mem_append.1 hc with hc | hc
      exacts [hw c hc, hw₁ c hc]

lemma impliedSpan_of_ne {t : Token} (h1 : t.type ≠ .NEWLINE) (h2 : t.type ≠ .EOF) :
    impliedSpan t = t.value.data := by
  unfold impliedSpan
  split
  next ht => exact absurd ht h1
  next ht => exact absurd ht h2
  next => rfl

lemma tokenizeGo_spans (n : Nat) : ∀ (cs : List Char) (p : Pos) (ts : List Token),
    (∀ c ∈ cs, c ≠ '"' ∧ c ≠ squote) → tokenizeGo n cs p = .ok ts →
    SpansWithWs cs ts := by
  induction n with
  | zero => intro cs p ts _ h; simp [tokenizeGo] at h
  | succ n ih =>
    intro cs p ts hq h
    match cs with
    | [] =>
      rw [tokenizeGo] at h
      obtain rfl : ts = [⟨.EOF, "", p.line, p.col⟩] := by simpa [eq_comm] using h
      have hs := SpansWithWs.cons [] ⟨.EOF, "", p.line, p.col⟩ [] []
        (by simp) (SpansWithWs.nil [] (by simp))
      simpa [impliedSpan] using hs
    | c :: cs₁ =>
      rw [tokenizeGo] at h
      split_ifs at h with hws hnl hdig hquote hident heq hneq hle hge
      · have hmem : ∀ d ∈ (c :: cs₁).dropWhile isHSpace, d ≠ '"' ∧ d ≠ squote :=
          fun d hd => hq d ((List.dropWhile_sublist _).subset hd)
        have h₂ := (ih _ _ _ hmem h).prepend
          (w := (c :: cs₁).takeWhile isHSpace) (fun d hd => List.mem_takeWhile_imp hd)
        rwa [List.takeWhile_append_dropWhile] at h₂
      · subst hnl
        obtain ⟨ts₁, h₁, rfl⟩ := consTok_eq_ok h
        have hmem : ∀ d ∈ cs₁, d ≠ '"' ∧ d ≠ squote := fun d hd => hq d (by simp [hd])
        have hs := SpansWithWs.cons [] ⟨.NEWLINE, "\\n", p.line, p.col⟩ cs₁ ts₁
          (by simp) (ih _ _ _ hmem h₁)
        simpa [impliedSpan] using hs
      · split at h
        next t rest p₁ hr =>
          obtain ⟨ts₁, h₁, rfl⟩ := consTok_eq_ok h
          obtain ⟨hty, hspan, -, -⟩ := readNumber_spec _ _ _ _ _ hr
          have hmem : ∀ d ∈ rest, d ≠ '"' ∧ d ≠ squote :=
            fun d hd => hq d (hspan ▸ List.mem_append.2 (Or.inr hd))
          have hs := SpansWithWs.cons [] t rest ts₁ (by simp) (ih _ _ _ hmem h₁)
          rwa [List.nil_append, impliedSpan_of_ne (by simp [hty]) (by simp [hty]),
            hspan] at hs
      · exact absurd hquote (by
          have := hq c (by simp)
          push_neg
          exact this)
      · split at h
        next t rest p₁ hr =>
          obtain ⟨ts₁, h₁, rfl⟩ := consTok_eq_ok h
          obtain ⟨hty, hspan, -, -⟩ := readIdentifier_spec _ _ _ _ _ hr
          have hmem : ∀ d ∈ rest, d ≠ '"' ∧ d ≠ squote :=
            fun d hd => hq d (hspan ▸ List.mem_append.2 (Or.inr hd))
          have hs := SpansWithWs.cons [] t rest ts₁ (by simp) (ih _ _ _ hmem h₁)
          rwa [List.nil_append,
            impliedSpan_of_ne (by simp [hty, (keywordType_ne _).2])
              (by simp [hty, (keywordType_ne _).1]), hspan] at hs
      · obtain ⟨rfl, hh⟩ := heq
        match cs₁, hh with
        | d :: cs₂, hh =>
          obtain rfl : d = '=' := by simpa using hh
          obtain ⟨ts₁, h₁, rfl⟩ := consTok_eq_ok h
          have hmem : ∀ e ∈ cs₂, e ≠ '"' ∧ e ≠ squote := fun e he => hq e (by simp [he])
          have hs := SpansWithWs.cons [] ⟨.EQUAL, "==", p.line, p.col⟩ cs₂ ts₁
            (by simp) (ih _ _ _ hmem h₁)
          simpa [impliedSpan] using hs
      · obtain ⟨rfl, hh⟩ := hneq
        match cs₁, hh with
        | d :: cs₂, hh =>
          obtain rfl : d = '=' := by simpa using hh
          obtain ⟨ts₁, h₁, rfl⟩ := consTok_eq_ok h
          have hmem : ∀ e ∈ cs₂, e ≠ '"' ∧ e ≠ squote := fun e he => hq e (by simp [he])
          have hs := SpansWithWs.cons [] ⟨.NOT_EQUAL, "!=", p.line, p.col⟩ cs₂ ts₁
            (by simp) (ih _ _ _ hmem h₁)
          simpa [impliedSpan] using hs
      · obtain ⟨rfl, hh⟩ := hle
        match cs₁, hh with
        | d :: cs₂, hh =>
          obtain rfl : d = '=' := by simpa using hh
          obtain ⟨ts₁, h₁, rfl⟩ := consTok_eq_ok h
          have hmem : ∀ e ∈ cs₂, e ≠ '"' ∧ e ≠ squote := fun e he => hq e (by simp [he])
          have hs := SpansWithWs.cons [] ⟨.LESS_EQUAL, "<=", p.line, p.col⟩ cs₂ ts₁
            (by simp) (ih _ _ _ hmem h₁)
          simpa [impliedSpan] using hs
      · obtain ⟨rfl, hh⟩ := hge
        match cs₁, hh with
        | d :: cs₂, hh =>
          obtain rfl : d = '=' := by simpa using hh
          obtain ⟨ts₁, h₁, rfl⟩ := consTok_eq_ok h
          have hmem : ∀ e ∈ cs₂, e ≠ '"' ∧ e ≠ squote := fun e he => hq e (by simp [he])
          have hs := SpansWithWs.cons [] ⟨.GREATER_EQUAL, ">=", p.line, p.col⟩ cs₂ ts₁
            (by simp) (ih _ _ _ hmem h₁)
          simpa [impliedSpan] using hs
      · split at h
        next tt hr =>
          obtain ⟨ts₁, h₁, rfl⟩ := consTok_eq_ok h
          have hmem : ∀ e ∈ cs₁, e ≠ '"' ∧ e ≠ squote := fun e he => hq e (by simp [he])
          have hs := SpansWithWs.cons [] ⟨tt, ⟨[c]⟩, p.line, p.col⟩ cs₁ ts₁
            (by simp) (ih _ _ _ hmem h₁)
          rwa [List.nil_append,
            impliedSpan_of_ne (by simp [(singleCharType_ne hr).2])
              (by simp [(singleCharType_ne hr).1])] at hs
        next hr => exact Except.noConfusion h

/-! Propagation of the backslash-at-end-of-input crash: a `typeError` can only
arise when the input ends in a backslash. -/

lemma tokenizeGo_typeError (n : Nat) : ∀ (cs : List Char) (p : Pos),
    tokenizeGo n cs p = .error .typeError → ∃ pre, cs = pre ++ ['\\'] := by
  induction n with
  | zero => intro cs p h; simp [tokenizeGo] at h
  | succ n ih =>
    intro cs p h
    match cs with
    | [] => rw [tokenizeGo] at h; simp at h
    | c :: cs₁ =>
      rw [tokenizeGo] at h
      split_ifs at h with hws hnl hdig hquote hident heq hneq hle hge
      · obtain ⟨pre, hpre⟩ := ih _ _ h
        refine ⟨(c :: cs₁).takeWhile isHSpace ++ pre, ?_⟩
        conv_lhs => rw [← List.takeWhile_append_dropWhile isHSpace (c :: cs₁), hpre]
        simp
      · obtain ⟨pre, rfl⟩ := ih _ _ (consTok_eq_error h)
        exact ⟨c :: pre, rfl⟩
      · split at h
        next t rest p₁ hr =>
          obtain ⟨pre, hpre⟩ := ih _ _ (consTok_eq_error h)
          obtain ⟨-, hspan, -, -⟩ := readNumber_spec _ _ _ _ _ hr
          exact ⟨t.value.data ++ pre, by rw [← hspan, hpre, List.append_assoc]⟩
      · split at h
        next e hr =>
          injection h with h
          subst h
          obtain ⟨pre, rfl⟩ := readStringLoop_typeError_last _ _ _ _ _ hr
          exact ⟨c :: pre, rfl⟩
        next v rest p₁ hr =>
          obtain ⟨pre, hpre⟩ := ih _ _ (consTok_eq_error h)
          obtain ⟨consumed, hcons, -⟩ := readStringLoop_ok_span _ _ _ _ _ _ _ _ hr
          exact ⟨c :: consumed ++ pre, by
            rw [hcons, hpre]; simp [List.append_assoc]⟩
      · split at h
        next t rest p₁ hr =>
          obtain ⟨pre, hpre⟩ := ih _ _ (consTok_eq_error h)
          obtain ⟨-, hspan, -, -⟩ := readIdentifier_spec _ _ _ _ _ hr
          exact ⟨t.value.data ++ pre, by rw [← hspan, hpre, List.append_assoc]⟩
      · obtain ⟨rfl, hh⟩ := heq
        obtain ⟨pre, hpre⟩ := ih _ _ (consTok_eq_error h)
        match cs₁, hh with
        | d :: cs₂, hh =>
          obtain rfl : d = '=' := by simpa using hh
          exact ⟨'=' :: '=' :: pre, by simpa using hpre⟩
      · obtain ⟨rfl, hh⟩ := hneq
        obtain ⟨pre, hpre⟩ := ih _ _ (consTok_eq_error h)
        match cs₁, hh with
        | d :: cs₂, hh =>
          obtain rfl : d = '=' := by simpa using hh
          exact ⟨'!' :: '=' :: pre, by simpa using hpre⟩
      · obtain ⟨rfl, hh⟩ := hle
        obtain ⟨pre, hpre⟩ := ih _ _ (consTok_eq_error h)
        match cs₁, hh with
        | d :: cs₂, hh =>
          obtain rfl : d = '=' := by simpa using hh
          exact ⟨'<' :: '=' :: pre, by simpa using hpre⟩
      · obtain ⟨rfl, hh⟩ := hge
        obtain ⟨pre, hpre⟩ := ih _ _ (consTok_eq_error h)
        match cs₁, hh with
        | d :: cs₂, hh =>
          obtain rfl : d = '=' := by simpa using hh
          exact ⟨'>' :: '=' :: pre, by simpa using hpre⟩
      · split at h
        next tt hr =>
          obtain ⟨pre, rfl⟩ := ih _ _ (consTok_eq_error h)
          exact ⟨c :: pre, rfl⟩
        next hr => simp at h

/-! Step lemma for the string branch of the driving loop. -/

lemma tokenizeGo_string_step (n : Nat) (c : Char) (cs : List Char) (p : Pos)
    (hc : c = '"' ∨ c = squote) (v rest : List Char) (p₁ : Pos)
    (hr : readStringLoop c p.col cs (advancePos c p) [] = .ok (v, rest, p₁)) :
    tokenizeGo (n + 1) (c :: cs) p =
      consTok ⟨.STRING, ⟨v⟩, p₁.line, p.col⟩ (tokenizeGo n rest p₁) := by
  rcases hc with rfl | rfl
  · rw [tokenizeGo, if_neg (by decide), if_neg (by decide), if_neg (by decide),
      if_pos (by decide)]
    rw [hr]
  · rw [tokenizeGo, if_neg (by decide), if_neg (by decide), if_neg (by decide),
      if_pos (by decide)]
    rw [hr]

/-! Maximal-munch computation lemmas for the two greedy readers. -/

lemma takeWhile_munch {P : Char → Bool} {d r : List Char} (hd : ∀ c ∈ d, P c = true)
    (hr : ∀ c, r.head? = some c → P c = false) :
    (d ++ r).takeWhile P = d ∧ (d ++ r).dropWhile P = r := by
  constructor
  · rw [List.takeWhile_append_of_pos hd]
    cases r with
    | nil => simp
    | cons x xs =>
        rw [List.takeWhile_cons_of_neg (by simp [hr x rfl])]
        simp
  · rw [List.dropWhile_append_of_pos hd]
    cases r with
    | nil => simp
    | cons x xs => rw [List.dropWhile_cons_of_neg (by simp [hr x rfl])]

lemma readNumber_munch (p : Pos) (d₁ d₂ r : List Char)
    (h₁ : ∀ c ∈ d₁, c.isDigit = true) (h₂ : ∀ c ∈ d₂, c.isDigit = true)
    (hr : ∀ c, r.head? = some c → c.isDigit = false) :
    readNumber (d₁ ++ '.' :: (d₂ ++ r)) p =
      (⟨.NUMBER, ⟨d₁ ++ '.' :: d₂⟩, p.line, p.col⟩, r,
        ⟨p.line, p.col + d₁.length + 1 + d₂.length⟩) := by
  have hdot : ∀ c, ('.' :: (d₂ ++ r)).head? = some c → c.isDigit = false := by
    intro c hc
    obtain rfl : c = '.' := by simpa using hc.symm
    decide
  obtain ⟨htake, hdrop⟩ := takeWhile_munch (r := '.' :: (d₂ ++ r)) h₁ hdot
  obtain ⟨htake₂, hdrop₂⟩ := takeWhile_munch h₂ hr
  simp only [readNumber, htake, hdrop, htake₂, hdrop₂]
  rw [advanceAll_no_newline (fun c hc => digit_ne_newline (h₁ c hc)),
    advancePos, if_neg (by decide),
    advanceAll_no_newline (fun c hc => digit_ne_newline (h₂ c hc))]

lemma readNumber_munch_nodot (p : Pos) (d r : List Char)
    (h₁ : ∀ c ∈ d, c.isDigit = true)
    (hr : ∀ c, r.head? = some c → c.isDigit = false) (hdot : r.head? ≠ some '.') :
    readNumber (d ++ r) p =
      (⟨.NUMBER, ⟨d⟩, p.line, p.col⟩, r, ⟨p.line, p.col + d.length⟩) := by
  obtain ⟨htake, hdrop⟩ := takeWhile_munch h₁ hr
  simp only [readNumber, htake, hdrop]
  have hadv := advanceAll_no_newline (fun c hc => digit_ne_newline (h₁ c hc)) p
  match r, hdot with
  | [], _ => rw [hadv]
  | x :: xs, hdot =>
      have hx : x ≠ '.' := by
        intro hx; exact hdot (by simp [hx])
      rw [hadv]
      split
      next rest₂ heq =>
        injection heq with hxeq hrest
        exact absurd hxeq hx
      next => rfl

lemma readIdentifier_munch (p : Pos) (d r : List Char)
    (h₁ : ∀ c ∈ d, isIdentChar c = true)
    (hr : ∀ c, r.head? = some c → isIdentChar c = false) :
    readIdentifier (d ++ r) p =
      (⟨keywordType ⟨d⟩, ⟨d⟩, p.line, p.col⟩, r, ⟨p.line, p.col + d.length⟩) := by
  obtain ⟨htake, hdrop⟩ := takeWhile_munch h₁ hr
  simp only [readIdentifier, htake, hdrop]
  rw [advanceAll_no_newline (fun c hc => identChar_ne_newline (h₁ c hc))]

/-! Claim theorems. -/

/-- C1: for every input on which `tokenize` succeeds, the returned sequence is
some list of non-end-of-input tokens followed by exactly one end-of-input
token (so the last element is the only `EOF` token), and the empty input
yields the sequence containing only the end-of-input token at line 1,
column 1. -/
theorem claim1_eof_terminator :
    (∀ (s : String) (ts : List Token), tokenize s = .ok ts →
      ∃ init l col, ts = init ++ [⟨.EOF, "", l, col⟩] ∧ ∀ u ∈ init, u.type ≠ .EOF) ∧
    tokenize "" = .ok [⟨.EOF, "", 1, 1⟩] :=
  ⟨fun _ _ h => tokenizeGo_ok_shape _ _ _ _ h, rfl⟩

/-- Witness for C1 at the concrete input `x`. -/
theorem claim1_eof_terminator_witness :
    ∃ init l col, [(⟨.IDENTIFIER, "x", 1, 1⟩ : Token), ⟨.EOF, "", 1, 2⟩] =
      init ++ [⟨.EOF, "", l, col⟩] ∧ ∀ u ∈ init, u.type ≠ .EOF :=
  claim1_eof_terminator.1 "x" [⟨.IDENTIFIER, "x", 1, 1⟩, ⟨.EOF, "", 1, 2⟩] rfl

/-- C2: whenever the current and next characters form `==`, `!=`, `<=` or
`>=`, the driving loop emits the single matching two-character token and
advances the cursor twice, whatever the rest of the input is; in particular
the two-character inputs never split into two one-character tokens. -/
theorem claim2_two_char_precedence :
    (∀ (n : Nat) (rest : List Char) (p : Pos),
      tokenizeGo (n + 1) ('=' :: '=' :: rest) p =
        consTok ⟨.EQUAL, "==", p.line, p.col⟩ (tokenizeGo n rest ⟨p.line, p.col + 2⟩)) ∧
    (∀ (n : Nat) (rest : List Char) (p : Pos),
      tokenizeGo (n + 1) ('!' :: '=' :: rest) p =
        consTok ⟨.NOT_EQUAL, "!=", p.line, p.col⟩ (tokenizeGo n rest ⟨p.line, p.col + 2⟩)) ∧
    (∀ (n : Nat) (rest : List Char) (p : Pos),
      tokenizeGo (n + 1) ('<' :: '=' :: rest) p =
        consTok ⟨.LESS_EQUAL, "<=", p.line, p.col⟩ (tokenizeGo n rest ⟨p.line, p.col + 2⟩)) ∧
    (∀ (n : Nat) (rest : List Char) (p : Pos),
      tokenizeGo (n + 1) ('>' :: '=' :: rest) p =
        consTok ⟨.GREATER_EQUAL, ">=", p.line, p.col⟩ (tokenizeGo n rest ⟨p.line, p.col + 2⟩)) ∧
    tokenize ">=" = .ok [⟨.GREATER_EQUAL, ">=", 1, 1⟩, ⟨.EOF, "", 1, 3⟩] ∧
    tokenize "<=" = .ok [⟨.LESS_EQUAL, "<=", 1, 1⟩, ⟨.EOF, "", 1, 3⟩] :=
  ⟨fun _ _ _ => rfl, fun _ _ _ => rfl, fun _ _ _ => rfl, fun _ _ _ => rfl, rfl, rfl⟩

/-- C3 counterexample: the input whose five characters are quote, `a`,
newline, `b`, quote is accepted, and its single string token records line 2 —
the line reached after consumption — although the token's first character
(the opening quote, the input's first character) is on line 1. -/
theorem claim3_position_counterexample :
    tokenize "\"a\nb\"" = .ok [⟨.STRING, "a\nb", 2, 1⟩, ⟨.EOF, "", 2, 3⟩] ∧
    (2 : Nat) ≠ 1 :=
  ⟨rfl, by decide⟩

/-- C3 amended: every emitted token records the column of its first character
as captured before its reader consumed anything; number and identifier tokens
also record the pre-consumption line, and the newline token is emitted at the
pre-advance position, but a string token records the line reached after its
literal was consumed (which equals the opening line only when the literal
spans a single line); for input `x`, newline, `y` the token for `y` reports
line 2, column 1. -/
theorem claim3_position_discipline :
    (∀ (cs : List Char) (p : Pos) (t : Token) (rest : List Char) (p₁ : Pos),
        readNumber cs p = (t, rest, p₁) → t.line = p.line ∧ t.column = p.col) ∧
    (∀ (cs : List Char) (p : Pos) (t : Token) (rest : List Char) (p₁ : Pos),
        readIdentifier cs p = (t, rest, p₁) → t.line = p.line ∧ t.column = p.col) ∧
    (∀ (n : Nat) (c : Char) (cs : List Char) (p : Pos) (v rest : List Char) (p₁ : Pos),
        c = '"' ∨ c = squote →
        readStringLoop c p.col cs (advancePos c p) [] = .ok (v, rest, p₁) →
        tokenizeGo (n + 1) (c :: cs) p =
          consTok ⟨.STRING, ⟨v⟩, p₁.line, p.col⟩ (tokenizeGo n rest p₁)) ∧
    (∀ (n : Nat) (cs : List Char) (p : Pos),
        tokenizeGo (n + 1) ('\n' :: cs) p =
          consTok ⟨.NEWLINE, "\\n", p.line, p.col⟩ (tokenizeGo n cs ⟨p.line + 1, 1⟩)) ∧
    tokenize "x\ny" = .ok [⟨.IDENTIFIER, "x", 1, 1⟩, ⟨.NEWLINE, "\\n", 1, 2⟩,
      ⟨.IDENTIFIER, "y", 2, 1⟩, ⟨.EOF, "", 2, 2⟩] := by
  refine ⟨?_, ?_, ?_, fun n cs p => rfl, rfl⟩
  · intro cs p t rest p₁ h
    obtain ⟨-, -, hc, hl⟩ := readNumber_spec _ _ _ _ _ h
    exact ⟨hl, hc⟩
  · intro cs p t rest p₁ h
    obtain ⟨-, -, hc, hl⟩ := readIdentifier_spec _ _ _ _ _ h
    exact ⟨hl, hc⟩
  · intro n c cs p v rest p₁ hc hr
    exact tokenizeGo_string_step n c cs p hc v rest p₁ hr

/-- Witness for C3 (amended) at the number reader on input `42`. -/
theorem claim3_position_discipline_witness :
    (⟨.NUMBER, "42", 1, 1⟩ : Token).line = 1 ∧
    (⟨.NUMBER, "42", 1, 1⟩ : Token).column = 1 :=
  claim3_position_discipline.1 ['4', '2'] ⟨1, 1⟩ ⟨.NUMBER, "42", 1, 1⟩ [] ⟨1, 3⟩ rfl

/-- C4 counterexample: the two-character input quote-backslash makes the
lexer fail with the modelled `TypeError` crash (`result += None` in
`read_string`), which is neither an unterminated-string nor an
unexpected-character error. -/
theorem claim4_error_kinds_counterexample :
    tokenize "\"\\" = .error .typeError := rfl

/-- C4 amended: `tokenize` either returns the complete token sequence or
fails with an unterminated-string error, an unexpected-character error, or —
only when the input's last character is a backslash (the crash inside an open
string literal) — the modelled `TypeError`; no token sequence accompanies a
failure. -/
theorem claim4_failure_modes (s : String) :
    (∃ ts, tokenize s = .ok ts) ∨
    (∃ l c, tokenize s = .error (.unterminatedString l c)) ∨
    (∃ ch l c, tokenize s = .error (.unexpectedCharacter ch l c)) ∨
    (tokenize s = .error .typeError ∧ ∃ pre, s.data = pre ++ ['\\']) := by
  cases h : tokenize s with
  | ok ts => exact Or.inl ⟨ts, rfl⟩
  | error e =>
      cases e with
      | unterminatedString l c => exact Or.inr (Or.inl ⟨l, c, rfl⟩)
      | unexpectedCharacter ch l c => exact Or.inr (Or.inr (Or.inl ⟨ch, l, c, rfl⟩))
      | typeError => exact Or.inr (Or.inr (Or.inr ⟨rfl, tokenizeGo_typeError _ _ _ h⟩))
      | fuelOut => exact absurd h (tokenize_no_fuelOut s)

/-- C5 counterexample: the unterminated literal opened at line 1, column 1 of
the input quote, `a`, newline, `b` is reported at line 2 — the line reached
at end of input — not at the opening quote's line 1. -/
theorem claim5_unterminated_counterexample :
    tokenize "\"a\nb" = .error (.unterminatedString 2 1) ∧ (2 : Nat) ≠ 1 :=
  ⟨rfl, by decide⟩

/-- C5 amended: an unterminated string literal always fails with an
unterminated-string error carrying the opening quote's column; the carried
line is the line reached at end of input, which equals the opening line
whenever the unterminated literal contains no raw newline, as in the input
quote-`a`-`b`-`c`. -/
theorem claim5_unterminated_position :
    (∀ (q : Char) (sc : Nat) (cs : List Char) (p : Pos) (acc : List Char) (e : LexError),
        readStringLoop q sc cs p acc = .error e →
        (∃ l, e = .unterminatedString l sc) ∨ e = .typeError) ∧
    (∀ (q : Char) (sc : Nat) (cs : List Char) (p : Pos) (acc : List Char) (l col : Nat),
        (∀ c ∈ cs, c ≠ '\n') →
        readStringLoop q sc cs p acc = .error (.unterminatedString l col) →
        l = p.line ∧ col = sc) ∧
    tokenize "\"abc" = .error (.unterminatedString 1 1) :=
  ⟨fun q sc cs p acc e h => readStringLoop_error_shape q sc cs p acc e h,
   fun q sc cs p acc l col hn h => readStringLoop_unterminated_pos q sc cs p acc l col hn h,
   rfl⟩

/-- Witness for C5 (amended): the loop entered after an opening quote at
line 1, column 1 and never finding a closing quote reports that position. -/
theorem claim5_unterminated_position_witness : (1 : Nat) = 1 ∧ (1 : Nat) = 1 :=
  claim5_unterminated_position.2.1 '"' 1 ['a'] ⟨1, 2⟩ [] 1 1 (by decide) rfl

/-- C6: the number reader consumes the maximal run of digits, then at most
one immediately following dot and the maximal digit run after it, and emits
one `NUMBER` token whose text is the verbatim consumed characters; `3.14`
yields text `3.14`, `42` yields `42`, `3.` yields the single token `3.`, and
a second dot is never consumed (in `1.2.3` it is left for the dispatch loop,
which rejects it). -/
theorem claim6_number_reader :
    (∀ (p : Pos) (d₁ d₂ r : List Char),
        (∀ c ∈ d₁, c.isDigit = true) → (∀ c ∈ d₂, c.isDigit = true) →
        (∀ c, r.head? = some c → c.isDigit = false) →
        readNumber (d₁ ++ '.' :: (d₂ ++ r)) p =
          (⟨.NUMBER, ⟨d₁ ++ '.' :: d₂⟩, p.line, p.col⟩, r,
            ⟨p.line, p.col + d₁.length + 1 + d₂.length⟩)) ∧
    (∀ (p : Pos) (d r : List Char),
        (∀ c ∈ d, c.isDigit = true) → (∀ c, r.head? = some c → c.isDigit = false) →
        r.head? ≠ some '.' →
        readNumber (d ++ r) p =
          (⟨.NUMBER, ⟨d⟩, p.line, p.col⟩, r, ⟨p.line, p.col + d.length⟩)) ∧
    tokenize "3.14" = .ok [⟨.NUMBER, "3.14", 1, 1⟩, ⟨.EOF, "", 1, 5⟩] ∧
    tokenize "42" = .ok [⟨.NUMBER, "42", 1, 1⟩, ⟨.EOF, "", 1, 3⟩] ∧
    tokenize "3." = .ok [⟨.NUMBER, "3.", 1, 1⟩, ⟨.EOF, "", 1, 3⟩] ∧
    tokenize "1.2.3" = .error (.unexpectedCharacter '.' 1 4) :=
  ⟨readNumber_munch, readNumber_munch_nodot, rfl, rfl, rfl, rfl⟩

/-- Witness for C6 at the concrete input `3.14`. -/
theorem claim6_number_reader_witness :
    readNumber "3.14".data ⟨1, 1⟩ = (⟨.NUMBER, "3.14", 1, 1⟩, [], ⟨1, 5⟩) :=
  claim6_number_reader.1 ⟨1, 1⟩ ['3'] ['1', '4'] [] (by decide) (by decide)
    (fun c hc => Option.noConfusion hc)

/-- C7: the string reader decodes escape sequences: backslash-`n` yields a
newline, backslash-`t` a tab, backslash-backslash a backslash, a backslash
before the delimiting quote yields that quote, and any other escaped
character yields itself with no error; the input quote, `a`, backslash, `n`,
`b`, quote yields one string token containing an actual newline. -/
theorem claim7_escape_decoding :
    (∀ q : Char, decodeEscape q 'n' = '\n') ∧
    (∀ q : Char, decodeEscape q 't' = '\t') ∧
    (∀ q : Char, decodeEscape q '\\' = '\\') ∧
    (∀ q : Char, (q = '"' ∨ q = squote) → decodeEscape q q = q) ∧
    (∀ q d : Char, d ≠ 'n' → d ≠ 't' → d ≠ '\\' → d ≠ q → decodeEscape q d = d) ∧
    (∀ (q : Char) (sc : Nat) (d : Char) (cs : List Char) (p : Pos) (acc : List Char),
        ('\\' : Char) ≠ q →
        readStringLoop q sc ('\\' :: d :: cs) p acc =
          readStringLoop q sc cs (advancePos d (advancePos '\\' p))
            (acc ++ [decodeEscape q d])) ∧
    tokenize "\"a\\nb\"" = .ok [⟨.STRING, "a\nb", 1, 1⟩, ⟨.EOF, "", 1, 7⟩] := by
  refine ⟨fun q => rfl, fun q => rfl, fun q => rfl, ?_, ?_, ?_, rfl⟩
  · intro q hq
    rcases hq with rfl | rfl <;> rfl
  · intro q d h1 h2 h3 h4
    rw [decodeEscape, if_neg h1, if_neg h2, if_neg h3, if_neg h4]
  · intro q sc d cs p acc hq
    exact readStringLoop_backslash q sc d cs p acc hq

/-- Witness for C7: the unknown escape backslash-`x` decodes to `x` inside a
double-quoted string. -/
theorem claim7_escape_decoding_witness : decodeEscape '"' 'x' = 'x' :=
  claim7_escape_decoding.2.2.2.2.1 '"' 'x' (by decide) (by decide) (by decide) (by decide)

/-- C8: the identifier reader consumes the maximal run of letters, digits and
underscores and classifies the consumed text by exact, case-sensitive lookup
in the keyword table `if`, `while`, `for`, `print`, emitting the keyword kind
on a match and `IDENTIFIER` otherwise; `ifx` is one identifier token, not
keyword `if` followed by `x`, and `If` is an identifier. -/
theorem claim8_identifier_keywords :
    (∀ (p : Pos) (d r : List Char),
        (∀ c ∈ d, isIdentChar c = true) →
        (∀ c, r.head? = some c → isIdentChar c = false) →
        readIdentifier (d ++ r) p =
          (⟨keywordType ⟨d⟩, ⟨d⟩, p.line, p.col⟩, r, ⟨p.line, p.col + d.length⟩)) ∧
    keywordType "if" = .IF ∧ keywordType "while" = .WHILE ∧
    keywordType "for" = .FOR ∧ keywordType "print" = .PRINT ∧
    (∀ s : String, s ≠ "if" → s ≠ "while" → s ≠ "for" → s ≠ "print" →
        keywordType s = .IDENTIFIER) ∧
    tokenize "ifx" = .ok [⟨.IDENTIFIER, "ifx", 1, 1⟩, ⟨.EOF, "", 1, 4⟩] ∧
    tokenize "if" = .ok [⟨.IF, "if", 1, 1⟩, ⟨.EOF, "", 1, 3⟩] ∧
    tokenize "If" = .ok [⟨.IDENTIFIER, "If", 1, 1⟩, ⟨.EOF, "", 1, 3⟩] := by
  refine ⟨readIdentifier_munch, rfl, rfl, rfl, rfl, ?_, rfl, rfl, rfl⟩
  intro s h1 h2 h3 h4
  rw [keywordType, if_neg h1, if_neg h2, if_neg h3, if_neg h4]

/-- Witness for C8 at the concrete input `ifx`. -/
theorem claim8_identifier_keywords_witness :
    readIdentifier "ifx".data ⟨1, 1⟩ = (⟨.IDENTIFIER, "ifx", 1, 1⟩, [], ⟨1, 4⟩) :=
  claim8_identifier_keywords.1 ⟨1, 1⟩ ['i', 'f', 'x'] [] (by decide)
    (fun c hc => Option.noConfusion hc)

/-- C9 counterexample: a single-quoted and a double-quoted spelling of the
same one-character string are different inputs, differ in no whitespace
character, and produce identical token sequences, so no reconstruction from
the emitted tokens can reproduce both inputs exactly: the round-trip is also
lossy for string literals, not only for whitespace runs. -/
theorem claim9_roundtrip_counterexample :
    tokenize (String.mk [squote, 'a', squote]) = tokenize "\"a\"" ∧
    String.mk [squote, 'a', squote] ≠ "\"a\"" :=
  ⟨rfl, by decide⟩

/-- C9 amended: for every accepted input containing no quote character (hence
no string literal), the input text is exactly the implied source spans of the
returned tokens, in order, interleaved with runs of horizontal whitespace —
the round-trip is lossy only for horizontal whitespace runs. -/
theorem claim9_roundtrip_amended (s : String) (ts : List Token)
    (h : tokenize s = .ok ts) (hq : ∀ c ∈ s.data, c ≠ '"' ∧ c ≠ squote) :
    SpansWithWs s.data ts :=
  tokenizeGo_spans _ _ _ _ hq h

/-- Witness for C9 (amended) at the concrete input `x 1`. -/
theorem claim9_roundtrip_amended_witness :
    SpansWithWs "x 1".data
      [⟨.IDENTIFIER, "x", 1, 1⟩, ⟨.NUMBER, "1", 1, 3⟩, ⟨.EOF, "", 1, 4⟩] :=
  claim9_roundtrip_amended "x 1"
    [⟨.IDENTIFIER, "x", 1, 1⟩, ⟨.NUMBER, "1", 1, 3⟩, ⟨.EOF, "", 1, 4⟩] rfl (by decide)

/-- C10: a raw newline inside a quoted string is accepted by the string
reader: it is appended verbatim to the decoded value while the line counter
advances, no `NEWLINE` token is emitted for it and no error is raised, so
string literals span multiple physical lines; the input quote, `x`, newline,
`y`, quote yields exactly one string token whose value contains the
newline. -/
theorem claim10_raw_newline_in_string :
    (∀ (q : Char) (sc : Nat) (cs : List Char) (p : Pos) (acc : List Char),
        (q = '"' ∨ q = squote) →
        readStringLoop q sc ('\n' :: cs) p acc =
          readStringLoop q sc cs ⟨p.line + 1, 1⟩ (acc ++ ['\n'])) ∧
    tokenize "\"x\ny\"" = .ok [⟨.STRING, "x\ny", 2, 1⟩, ⟨.EOF, "", 2, 3⟩] := by
  refine ⟨?_, rfl⟩
  intro q sc cs p acc hq
  rcases hq with rfl | rfl
  · rw [readStringLoop_other _ _ _ _ _ _ (by decide) (by decide)]
    exact rfl
  · rw [readStringLoop_other _ _ _ _ _ _ (by decide) (by decide)]
    exact rfl

/-- Witness for C10: one raw-newline step of the string reader on a
double-quoted literal. -/
theorem claim10_raw_newline_in_string_witness :
    readStringLoop '"' 1 ['\n', 'y', '"'] ⟨1, 2⟩ [] =
      readStringLoop '"' 1 ['y', '"'] ⟨2, 1⟩ ['\n'] :=
  claim10_raw_newline_in_string.1 '"' 1 ['y', '"'] ⟨1, 2⟩ [] (Or.inl rfl)
